import Mathlib

/-!
Verification of the `svu_episode_picker` repository (`src/svu_picker.py`).

The pipeline is embedded shallowly:

* Python strings are modelled as `Str := List Nat` (lists of character
  codes); the helper `str` converts a Lean string literal to this
  representation.  The modelled character classes (whitespace, digits,
  letter case) cover the ASCII range, which is the range exercised by the
  program and its data.
* Python `dict` rows are modelled by the structure `Row` holding the
  fields the program reads (`r.get(k)` becomes field access, absent keys
  are `none`).
* Fallible Python code (functions that can raise) returns `Option`/`Except`.
* `float` ratings are modelled as `ℚ`; the program only parses, compares
  and negates ratings, and all of those operations are exact on the
  decimal literals involved.  Non-finite literals (`inf`/`nan`) are outside
  the model; the spec states ratings are finite or unknown.
-/

/-- Python strings, as lists of character codes. -/
abbrev Str := List Nat

/-- Convert a Lean string literal to its code list. -/
def str (s : String) : Str := s.data.map Char.toNat

/-- ASCII whitespace, the characters stripped/split by Python `str.strip`
and `str.split()` on the inputs in scope. -/
def isWs (n : Nat) : Bool := n == 32 || n == 9 || n == 10 || n == 13 || n == 11 || n == 12

/-- ASCII decimal digit. -/
def isDigit (n : Nat) : Bool := 48 ≤ n && n ≤ 57

/-- `str.lower` on one character (ASCII). -/
def asciiLower (n : Nat) : Nat := if 65 ≤ n ∧ n ≤ 90 then n + 32 else n

/-- `str.upper` on one character (ASCII). -/
def asciiUpper (n : Nat) : Nat := if 97 ≤ n ∧ n ≤ 122 then n - 32 else n

/-- `str.lower`. -/
def lowerStr (s : Str) : Str := s.map asciiLower

/-- `str.upper`. -/
def upperStr (s : Str) : Str := s.map asciiUpper

/-- `str.strip`: drop leading and trailing whitespace. -/
def pyStrip (s : Str) : Str :=
  ((s.dropWhile isWs).reverse.dropWhile isWs).reverse

/-- Split a string at every character satisfying `p`, keeping empty
segments (the behaviour of Python `str.split(sep)` for a one-character
separator, with `p` testing for that separator). -/
def splitOnPred (p : Nat → Bool) : Str → List Str
  | [] => [[]]
  | c :: cs =>
    if p c then [] :: splitOnPred p cs
    else
      match splitOnPred p cs with
      | [] => [[c]]
      | w :: ws => (c :: w) :: ws

/-- Python `str.split()` with no argument: maximal runs of
non-whitespace characters. -/
def splitWs (s : Str) : List Str :=
  (splitOnPred isWs s).filter (fun w => w ≠ [])

/-- Python `" ".join(words)`. -/
def joinWords : List Str → Str
  | [] => []
  | [w] => w
  | w :: ws => w ++ 32 :: joinWords ws

/-- Digit run as accepted by Python `int`: non-empty, and any underscore
sits between two digits. -/
def digitsRest : Str → Bool
  | [] => true
  | 95 :: d :: rest => isDigit d && digitsRest (d :: rest)
  | [95] => false
  | d :: rest => isDigit d && digitsRest rest

/-- Whole digit group accepted by Python `int` (after sign): first
character must be a digit. -/
def digitsOk : Str → Bool
  | [] => false
  | c :: rest => isDigit c && digitsRest (c :: rest)

/-- Numeric value of the digits in a run (underscores skipped). -/
def digitsVal (s : Str) : Nat :=
  s.foldl (fun a c => if isDigit c then a * 10 + (c - 48) else a) 0

/-- Python `int(s)` on a string: strip whitespace, optional sign, digit
run; `none` models the `ValueError`. -/
def pyInt (s : Str) : Option Int :=
  let t := pyStrip s
  match t with
  | 43 :: rest => if digitsOk rest then some (digitsVal rest) else none
  | 45 :: rest => if digitsOk rest then some (-(digitsVal rest : Int)) else none
  | _ => if digitsOk t then some (digitsVal t) else none

/-- Mantissa of a Python `float` literal: `digits`, `digits.`, `.digits`
or `digits.digits` (underscore grouping as in `int`). -/
def mantissaVal (m : Str) : Option ℚ :=
  match splitOnPred (fun c => c == 46) m with
  | [ip] => if digitsOk ip then some ((digitsVal ip : ℚ)) else none
  | [ip, fp] =>
    if ip = [] ∧ fp = [] then none
    else if (ip = [] ∨ digitsOk ip) ∧ (fp = [] ∨ digitsOk fp) then
      some ((digitsVal ip : ℚ) +
        (digitsVal fp : ℚ) / (10 : ℚ) ^ ((fp.filter isDigit).length))
    else none
  | _ => none

/-- Exponent part of a Python `float` literal: optional sign then digits. -/
def expValOpt (ex : Str) : Option Int :=
  match ex with
  | 43 :: rest => if digitsOk rest then some (digitsVal rest) else none
  | 45 :: rest => if digitsOk rest then some (-(digitsVal rest : Int)) else none
  | _ => if digitsOk ex then some (digitsVal ex) else none

/-- Unsigned Python `float` body: mantissa with optional `e`/`E` exponent. -/
def pyFloatUnsigned (t : Str) : Option ℚ :=
  match splitOnPred (fun c => c == 101 || c == 69) t with
  | [m] => mantissaVal m
  | [m, ex] =>
    match mantissaVal m, expValOpt ex with
    | some mv, some ev => some (mv * (10 : ℚ) ^ ev)
    | _, _ => none
  | _ => none

/-- Python `float(s)` on a string (finite literals; `none` models the
`ValueError`). -/
def pyFloat (s : Str) : Option ℚ :=
  let t := pyStrip s
  match t with
  | 43 :: rest => pyFloatUnsigned rest
  | 45 :: rest => (pyFloatUnsigned rest).map (fun q => -q)
  | _ => pyFloatUnsigned t

/-- Python string comparison `a < b`: lexicographic on character codes. -/
def strLt : Str → Str → Bool
  | [], [] => false
  | [], _ :: _ => true
  | _ :: _, [] => false
  | a :: as, b :: bs => if a < b then true else if b < a then false else strLt as bs

/-!  Data model: one normalized episode record (`normalize_row`'s output
shape), and one loosely-typed input row (`r.get(key)` on the CSV dict). -/

/-- A normalized episode record. -/
structure Episode where
  season : Int
  episode : Int
  title : Str
  air_date : Str
  imdb_id : Str
  imdb_rating : Option ℚ
  features_george_huang : Bool
  heavy_finn_munch : Bool
  heavy_trial : Bool
  one_sentence_plot : Str
  one_sentence_reason : Str
deriving DecidableEq, Repr

/-- A loosely-typed input row: the fields `normalize_row` reads via
`r.get(...)`; an absent key is `none`. -/
structure Row where
  season : Option Str := none
  episode : Option Str := none
  title : Option Str := none
  name : Option Str := none
  air_date : Option Str := none
  imdb_id : Option Str := none
  imdb_rating : Option Str := none
  features_george_huang : Option Str := none
  heavy_finn_munch : Option Str := none
  heavy_trial : Option Str := none
  one_sentence_plot : Option Str := none
  one_sentence_reason : Option Str := none
deriving DecidableEq, Repr

/-- `to_bool` inner helper of `normalize_row`: case-insensitive match
against the truthy vocabulary; `None` and anything else is `False`. -/
def to_bool (v : Option Str) : Bool :=
  match v with
  | none => false
  | some s =>
    let t := lowerStr (pyStrip s)
    t = str "1" ∨ t = str "true" ∨ t = str "yes" ∨ t = str "y" ∨ t = str "t"

/-- `to_float` inner helper of `normalize_row`: `try: float(v) except:
None` (and `float(None)` raises, hence `none`). -/
def to_float (v : Option Str) : Option ℚ := v.bind pyFloat

/-- Python `x or d` for an optional string `x` and default `d`: the empty
string is falsy. -/
def pyOr (v : Option Str) (d : Str) : Str :=
  match v with
  | none => d
  | some s => if s = [] then d else s

/-- `int(r.get(k) or 0)` for an integer field of `normalize_row`: absent
or empty is `0`; otherwise Python `int` parsing, `none` modelling the
uncaught `ValueError`. -/
def intField (v : Option Str) : Option Int :=
  match v with
  | none => some 0
  | some s => if s = [] then some 0 else pyInt s

/-- `normalize_row` (src/svu_picker.py lines 93-114): coerce a row to a
typed record.  `none` models the exception escaping when a non-empty
`season`/`episode` value does not parse as an integer. -/
def normalize_row (r : Row) : Option Episode :=
  match intField r.season, intField r.episode with
  | some se, some ep =>
    some {
      season := se
      episode := ep
      title := pyOr r.title (pyOr r.name [])
      air_date := pyOr r.air_date []
      imdb_id := pyOr r.imdb_id []
      imdb_rating := to_float r.imdb_rating
      features_george_huang := to_bool r.features_george_huang
      heavy_finn_munch := to_bool r.heavy_finn_munch
      heavy_trial := to_bool r.heavy_trial
      one_sentence_plot := pyOr r.one_sentence_plot []
      one_sentence_reason := pyOr r.one_sentence_reason [] }
  | _, _ => none

/-!  Range parser (`parse_range`, src/svu_picker.py lines 66-83).  In the
source every failure inside the `try` block — bad structure, unparseable
integers, or the descending-order `ValueError` — is caught and re-raised
as one `argparse.ArgumentTypeError` whose message quotes the input.  The
error type below keeps the internal cause distinguishable (it is the
`__cause__` of the surfaced error) while both constructors carry the
surfaced message. -/

/-- The surfaced `ArgumentTypeError`, tagged with its internal cause. -/
inductive RangeError where
  | invalidFormat (msg : Str)
  | invalidOrder (msg : Str)
deriving DecidableEq, Repr

/-- The message of the surfaced `ArgumentTypeError`. -/
def argErrMsg (s : Str) : Str :=
  str "Invalid range format: '" ++ s ++ str "'. Expected 'SxEy>SxEy'"

/-- Normalization applied to each side: `s.strip().upper()`. -/
def seNormalize (t : Str) : Str := upperStr (pyStrip t)

/-- Not the episode marker `E` (code 69): the predicate locating
`s.index("E")` by splitting `takeWhile`/`dropWhile`. -/
def neqE (d : Nat) : Bool := d != 69

/-- Combine the two integer parses of a side:
`int(s[1:idx])` and `int(s[idx+1:])`. -/
def seAfterE (sd ed : Str) : Option (Int × Int) :=
  match pyInt sd, pyInt ed with
  | some a, some b => some (a, b)
  | _, _ => none

/-- Locate the first `E` after the season marker and parse around it. -/
def seSplit (rest : Str) : Option (Int × Int) :=
  match rest.dropWhile neqE with
  | [] => none
  | _ :: ed => seAfterE (rest.takeWhile neqE) ed

/-- Body of `se_to_tuple` on the normalized side: require leading `S`
(code 83) and an `E` (code 69) somewhere after it, then parse the two
slices around the first `E` as integers. -/
def seCore (u : Str) : Option (Int × Int) :=
  match u with
  | [] => none
  | c :: rest => if c = 83 then seSplit rest else none

/-- `se_to_tuple` inner helper of `parse_range`. -/
def se_to_tuple (t : Str) : Option (Int × Int) := seCore (seNormalize t)

/-- `range_str.split(">")`. -/
def splitGt (s : Str) : List Str := splitOnPred (fun c => c == 62) s

/-- The body of `parse_range` once the split produced exactly the two
sides `l` and `r` of the whole expression `s`. -/
def parseSides (s l r : Str) : Except RangeError (Int × Int × Int × Int) :=
  match se_to_tuple l, se_to_tuple r with
  | some (s1, e1), some (s2, e2) =>
    if s2 < s1 ∨ (s2 = s1 ∧ e2 < e1) then .error (.invalidOrder (argErrMsg s))
    else .ok (s1, e1, s2, e2)
  | _, _ => .error (.invalidFormat (argErrMsg s))

/-- `parse_range` (src/svu_picker.py lines 66-83). -/
def parse_range (s : Str) : Except RangeError (Int × Int × Int × Int) :=
  match splitGt s with
  | [l, r] => parseSides s l r
  | _ => .error (.invalidFormat (argErrMsg s))

/-!  Filter engine (`in_range` and `filter_episodes`,
src/svu_picker.py lines 116-144). -/

/-- Module-level configuration constants. -/
def MAX_SEASONS_ALLOWED : Int × Int := (1, 12)

/-- Default minimum IMDb rating. -/
def MIN_IMDB_RATING : ℚ := 8

/-- Default number of results. -/
def DEFAULT_NUM_RESULTS : Nat := 3

/-- `in_range`: inclusive membership of the linearized position
`season*100 + episode` in `[s1*100+e1, s2*100+e2]`. -/
def in_range (ep : Episode) (s1 e1 s2 e2 : Int) : Bool :=
  let v := ep.season * 100 + ep.episode
  s1 * 100 + e1 ≤ v ∧ v ≤ s2 * 100 + e2

/-- The loop body of `filter_episodes`: one `continue`-chain per record,
in source order. -/
def filterLoop (s1 e1 s2 e2 : Int) (min_imdb : ℚ) (lo hi : Int)
    (ex : List Int) : List Episode → List Episode
  | [] => []
  | ep :: rest =>
    if ex ≠ [] ∧ ep.season ∈ ex then filterLoop s1 e1 s2 e2 min_imdb lo hi ex rest
    else if ¬ in_range ep s1 e1 s2 e2 then filterLoop s1 e1 s2 e2 min_imdb lo hi ex rest
    else if ¬ (lo ≤ ep.season ∧ ep.season ≤ hi) then filterLoop s1 e1 s2 e2 min_imdb lo hi ex rest
    else if ¬ ep.features_george_huang then filterLoop s1 e1 s2 e2 min_imdb lo hi ex rest
    else if ep.heavy_finn_munch then filterLoop s1 e1 s2 e2 min_imdb lo hi ex rest
    else if ep.heavy_trial then filterLoop s1 e1 s2 e2 min_imdb lo hi ex rest
    else
      match ep.imdb_rating with
      | none => filterLoop s1 e1 s2 e2 min_imdb lo hi ex rest
      | some q =>
        if q < min_imdb then filterLoop s1 e1 s2 e2 min_imdb lo hi ex rest
        else ep :: filterLoop s1 e1 s2 e2 min_imdb lo hi ex rest

/-- `filter_episodes` (src/svu_picker.py lines 124-144); the exclusion
set `set(exclude_seasons or [])` is represented by the list itself
(membership is all that is used). -/
def filter_episodes (episodes : List Episode) (rng : Int × Int × Int × Int)
    (min_imdb : ℚ) (allow_seasons : Int × Int) (exclude_seasons : List Int) :
    List Episode :=
  filterLoop rng.1 rng.2.1 rng.2.2.1 rng.2.2.2 min_imdb
    allow_seasons.1 allow_seasons.2 exclude_seasons episodes

/-!  Ranker (`rank_and_select`, src/svu_picker.py lines 146-151).
Python's `sorted` is a stable ascending sort by the key
`(-(rating or 0.0), title)`; it is modelled by a stable insertion sort
with the same strict key comparison (`random.seed(42)` in the source has
no effect on the result and is dropped). -/

/-- The first sort-key component: `-float(e.get("imdb_rating") or 0.0)`. -/
def ratingKey (e : Episode) : ℚ := -(e.imdb_rating.getD 0)

/-- Strict comparison of the Python key tuples `(-rating, title)`. -/
def keyLt (a b : Episode) : Bool :=
  if ratingKey a < ratingKey b then true
  else if ratingKey b < ratingKey a then false
  else strLt a.title b.title

/-- Stable insertion: place `x` before the first element not strictly
below it, so elements with equal keys keep their input order. -/
def sInsert (x : Episode) : List Episode → List Episode
  | [] => [x]
  | y :: ys => if keyLt y x then y :: sInsert x ys else x :: y :: ys

/-- Stable sort by the Python key (ascending, equal keys in input order):
the model of `sorted(candidates, key=...)`. -/
def pySorted : List Episode → List Episode
  | [] => []
  | x :: xs => sInsert x (pySorted xs)

/-- `rank_and_select` (src/svu_picker.py lines 146-151): full stable sort
by `(-rating, title)`, then truncate to the first `n`. -/
def rank_and_select (candidates : List Episode) (n : Nat) : List Episode :=
  (pySorted candidates).take n

/-!  Detail expander (`details_expand`, src/svu_picker.py lines 163-199). -/

/-- `sentence.replace(" and ", ", ")`: leftmost, non-overlapping
(codes: space 32, a 97, n 110, d 100). -/
def replaceAnd : Str → Str
  | 32 :: 97 :: 110 :: 100 :: 32 :: rest => 44 :: 32 :: replaceAnd rest
  | c :: rest => c :: replaceAnd rest
  | [] => []

/-- The comma-split clause list of `expand_sentence_to_bullets`:
`[p.strip() for p in sentence.replace(" and ", ", ").split(",") if p.strip()]`. -/
def clauseParts (sentence : Str) : List Str :=
  ((splitOnPred (fun c => c == 44) (replaceAnd sentence)).map pyStrip).filter
    (fun p => p ≠ [])

/-- The word-chunk bullets of the re-split branch: for `i < 4`, the chunk
`" ".join(words[i*approx:(i+1)*approx])`, stripped, kept only when the
chunk is non-empty. -/
def chunkBullets (words : List Str) (approx : Nat) : List Str :=
  (List.range 4).filterMap (fun i =>
    let chunk := joinWords ((words.drop (i * approx)).take approx)
    if chunk = [] then none else some (pyStrip chunk))

/-- The word-chunk bullet list of `expand_sentence_to_bullets` for a
sentence, with the source's `approx = max(1, len(words)//4)`. -/
def chunksOf (sentence : Str) : List Str :=
  chunkBullets (splitWs sentence) (max 1 ((splitWs sentence).length / 4))

/-- `expand_sentence_to_bullets` inner helper of `details_expand`
(`max_bullets = 4`): empty sentence gives four placeholder bullets; at
least four comma clauses gives the first four; otherwise the word-chunk
bullets padded with their last element.  `none` models the `IndexError`
raised by `bullets[-1]` when the chunk list is empty (a non-empty,
all-whitespace sentence). -/
def expand_sentence_to_bullets (sentence : Str) : Option (List Str) :=
  if sentence = [] then some (List.replicate 4 (str "(No detail available)"))
  else if (clauseParts sentence).length < 4 then
    match (chunksOf sentence).getLast? with
    | none => none
    | some last =>
      some ((chunksOf sentence ++
        List.replicate (4 - (chunksOf sentence).length) last).take 4)
  else some ((clauseParts sentence).take 4)

/-- `details_expand` (src/svu_picker.py lines 163-199), restricted to its
observable content: the pair of plot and reason bullet lists (the
surrounding header/markdown assembly only concatenates these verbatim).
`none` models an `IndexError` escaping from either expansion. -/
def details_expand (ep : Episode) : Option (List Str × List Str) :=
  match expand_sentence_to_bullets ep.one_sentence_plot,
        expand_sentence_to_bullets ep.one_sentence_reason with
  | some p, some r => some (p, r)
  | _, _ => none

/-- The `--details` lookup of `main` (src/svu_picker.py lines 244-251):
strip the query, keep records whose lowercased title equals the
lowercased query, return the first (`none` models the not-found exit). -/
def details_lookup (episodes : List Episode) (queryRaw : Str) : Option Episode :=
  match episodes.filter (fun e => lowerStr e.title = lowerStr (pyStrip queryRaw)) with
  | [] => none
  | e :: _ => some e

/-!  Order facts about the Python string comparison. -/

theorem strLt_irrefl (a : Str) : strLt a a = false := by
  induction a with
  | nil => rfl
  | cons c cs ih => simp [strLt, ih]

theorem strLt_asymm : ∀ {a b : Str}, strLt a b = true → strLt b a = false
  | [], [], h => by simp [strLt] at h
  | [], _ :: _, _ => by simp [strLt]
  | _ :: _, [], h => by simp [strLt] at h
  | a :: as, b :: bs, h => by
    simp only [strLt] at h ⊢
    rcases lt_trichotomy a b with hab | hab | hab
    · simp [hab, Nat.lt_asymm hab]
    · subst hab
      simp only [lt_irrefl, if_false] at h ⊢
      exact strLt_asymm h
    · simp [hab, Nat.lt_asymm hab] at h

theorem strLt_trans : ∀ {a b c : Str},
    strLt a b = true → strLt b c = true → strLt a c = true
  | [], _, _ :: _, _, _ => by simp [strLt]
  | [], _ :: _, [], _, h2 => by simp [strLt] at h2
  | [], [], [], h1, _ => by simp [strLt] at h1
  | _ :: _, [], _, h1, _ => by simp [strLt] at h1
  | _ :: _, _ :: _, [], _, h2 => by simp [strLt] at h2
  | a :: as, b :: bs, c :: cs, h1, h2 => by
    simp only [strLt] at h1 h2 ⊢
    rcases lt_trichotomy a b with hab | hab | hab
    · rcases lt_trichotomy b c with hbc | hbc | hbc
      · simp [Nat.lt_trans hab hbc, Nat.lt_asymm (Nat.lt_trans hab hbc)]
      · subst hbc; simp [hab, Nat.lt_asymm hab]
      · simp [hbc, Nat.lt_asymm hbc] at h2
    · subst hab
      rcases lt_trichotomy a c with hac | hac | hac
      · simp [hac, Nat.lt_asymm hac]
      · subst hac
        simp only [lt_irrefl, if_false] at h1 h2 ⊢
        exact strLt_trans h1 h2
      · simp [hac, Nat.lt_asymm hac] at h2
    · simp [hab, Nat.lt_asymm hab] at h1

theorem strLt_eq_of_not : ∀ {a b : Str},
    strLt a b = false → strLt b a = false → a = b
  | [], [], _, _ => rfl
  | [], _ :: _, h1, _ => by simp [strLt] at h1
  | _ :: _, [], _, h2 => by simp [strLt] at h2
  | a :: as, b :: bs, h1, h2 => by
    simp only [strLt] at h1 h2
    rcases lt_trichotomy a b with hab | hab | hab
    · simp [hab] at h1
    · subst hab
      simp only [lt_irrefl, if_false] at h1 h2
      exact congrArg (a :: ·) (strLt_eq_of_not h1 h2)
    · simp [hab, Nat.lt_asymm hab] at h2

/-!  Order facts about the Python string comparison, continued. -/

theorem strLt_false_trans : ∀ {a b c : Str},
    strLt a b = false → strLt b c = false → strLt a c = false
  | [], [], c, _, h2 => h2
  | [], _ :: _, _, h1, _ => by simp [strLt] at h1
  | _ :: _, [], [], _, _ => by simp [strLt]
  | _ :: _, [], _ :: _, _, h2 => by simp [strLt] at h2
  | _ :: _, _ :: _, [], _, _ => by simp [strLt]
  | a :: as, b :: bs, c :: cs, h1, h2 => by
    simp only [strLt] at h1 h2 ⊢
    rcases lt_trichotomy a b with hab | hab | hab
    · simp [hab] at h1
    · subst hab
      rcases lt_trichotomy a c with hac | hac | hac
      · simp [hac] at h2
      · subst hac
        simp only [lt_irrefl, if_false] at h1 h2 ⊢
        exact strLt_false_trans h1 h2
      · simp [hac, Nat.lt_asymm hac]
    · rcases lt_trichotomy b c with hbc | hbc | hbc
      · simp [hbc] at h2
      · subst hbc
        simp [hab, Nat.lt_asymm hab]
      · have : c < a := Nat.lt_trans hbc hab
        simp [this, Nat.lt_asymm this]

/-!  Order facts about the ranking key. -/

/-- The full Python sort key of a record. -/
def keyOf (e : Episode) : ℚ × Str := (ratingKey e, e.title)

theorem keyLt_eq_true_iff {a b : Episode} : keyLt a b = true ↔
    (ratingKey a < ratingKey b ∨
      (ratingKey a = ratingKey b ∧ strLt a.title b.title = true)) := by
  unfold keyLt
  rcases lt_trichotomy (ratingKey a) (ratingKey b) with h | h | h
  · simp [h]
  · simp [h, lt_irrefl]
  · rw [if_neg (asymm h), if_pos h]
    constructor
    · intro hx; exact absurd hx (by simp)
    · rintro (hx | ⟨hx, -⟩)
      · exact absurd hx (asymm h)
      · exact absurd hx (ne_of_gt h)

theorem keyLt_eq_false_iff {a b : Episode} : keyLt a b = false ↔
    (ratingKey b < ratingKey a ∨
      (ratingKey a = ratingKey b ∧ strLt a.title b.title = false)) := by
  rw [← Bool.not_eq_true, keyLt_eq_true_iff]
  constructor
  · intro h
    rcases lt_trichotomy (ratingKey a) (ratingKey b) with hr | hr | hr
    · exact absurd (Or.inl hr) h
    · refine Or.inr ⟨hr, ?_⟩
      rcases Bool.eq_false_or_eq_true (strLt a.title b.title) with hs | hs
      · exact absurd (Or.inr ⟨hr, hs⟩) h
      · exact hs
    · exact Or.inl hr
  · rintro (h | ⟨h1, h2⟩) hx
    · rcases hx with hx | ⟨hx, -⟩
      · exact absurd hx (asymm h)
      · exact absurd hx (ne_of_gt h)
    · rcases hx with hx | ⟨-, hx⟩
      · exact absurd hx (by simp [h1])
      · simp [h2] at hx

theorem keyLt_asymm {a b : Episode} (h : keyLt a b = true) : keyLt b a = false := by
  rw [keyLt_eq_true_iff] at h
  rw [keyLt_eq_false_iff]
  rcases h with h | ⟨h1, h2⟩
  · exact Or.inl h
  · exact Or.inr ⟨h1.symm, strLt_asymm h2⟩

theorem keyLt_false_trans {a b c : Episode}
    (h1 : keyLt b a = false) (h2 : keyLt c b = false) : keyLt c a = false := by
  rw [keyLt_eq_false_iff] at h1 h2 ⊢
  rcases h1 with h1 | ⟨h1a, h1b⟩
  · rcases h2 with h2 | ⟨h2a, h2b⟩
    · exact Or.inl (h1.trans h2)
    · refine Or.inl ?_
      rw [h2a]
      exact h1
  · rcases h2 with h2 | ⟨h2a, h2b⟩
    · refine Or.inl ?_
      rw [← h1a]
      exact h2
    · exact Or.inr ⟨h2a.trans h1a, strLt_false_trans h2b h1b⟩

theorem keyLt_false_false_keyOf_eq {a b : Episode}
    (h1 : keyLt a b = false) (h2 : keyLt b a = false) : keyOf a = keyOf b := by
  rw [keyLt_eq_false_iff] at h1 h2
  unfold keyOf
  rcases h1 with h1 | ⟨h1a, h1b⟩
  · rcases h2 with h2 | ⟨h2a, h2b⟩
    · exact absurd h1 (asymm h2)
    · exact absurd h1 (by simp [h2a])
  · rcases h2 with h2 | ⟨h2a, h2b⟩
    · exact absurd h2 (by simp [h1a])
    · exact Prod.ext h1a (strLt_eq_of_not h1b h2b)

theorem keyLt_congr {a b a2 b2 : Episode}
    (ha : keyOf a = keyOf a2) (hb : keyOf b = keyOf b2) :
    keyLt a b = keyLt a2 b2 := by
  unfold keyOf at ha hb
  rw [Prod.mk.injEq] at ha hb
  unfold keyLt
  rw [ha.1, ha.2, hb.1, hb.2]

/-!  Bridge from the stable insertion sort to Mathlib's `insertionSort`. -/

/-- The non-strict key order: `a` may come before `b`. -/
def keyLE (a b : Episode) : Prop := keyLt b a = false

instance : DecidableRel keyLE := fun a b => by unfold keyLE; infer_instance

instance : IsTotal Episode keyLE := by
  constructor
  intro a b
  rcases Bool.eq_false_or_eq_true (keyLt b a) with h | h
  · exact Or.inr (keyLt_asymm h)
  · exact Or.inl h

instance : IsTrans Episode keyLE := by
  constructor
  intro a b c h1 h2
  exact keyLt_false_trans h1 h2

theorem sInsert_eq_orderedInsert (x : Episode) (l : List Episode) :
    sInsert x l = List.orderedInsert keyLE x l := by
  induction l with
  | nil => rfl
  | cons y ys ih =>
    by_cases h : keyLt y x = true
    · simp [sInsert, List.orderedInsert, h, keyLE, ih]
    · simp only [Bool.not_eq_true] at h
      simp [sInsert, List.orderedInsert, h, keyLE]

theorem pySorted_eq_insertionSort (l : List Episode) :
    pySorted l = List.insertionSort keyLE l := by
  induction l with
  | nil => rfl
  | cons x xs ih => simp [pySorted, List.insertionSort, ih, sInsert_eq_orderedInsert]

theorem pySorted_perm (l : List Episode) : List.Perm (pySorted l) l := by
  rw [pySorted_eq_insertionSort]
  exact List.perm_insertionSort keyLE l

theorem pySorted_sorted (l : List Episode) : List.Sorted keyLE (pySorted l) := by
  rw [pySorted_eq_insertionSort]
  exact List.sorted_insertionSort keyLE l

/-- The strict key order, as a relation. -/
def keyLtP (a b : Episode) : Prop := keyLt a b = true

instance : IsAntisymm Episode keyLtP := by
  constructor
  intro a b h1 h2
  exact absurd h2 (by simp [keyLtP, keyLt_asymm h1])

theorem pairwise_keyLtP_of_sorted {l : List Episode}
    (hs : List.Sorted keyLE l) (hnd : (l.map keyOf).Nodup) :
    List.Pairwise keyLtP l := by
  rw [List.Nodup, List.pairwise_map] at hnd
  refine (hs.and hnd).imp ?_
  rintro a b ⟨hle, hne⟩
  rcases Bool.eq_false_or_eq_true (keyLt a b) with h | h
  · exact h
  · exact absurd (keyLt_false_false_keyOf_eq h hle) hne

/-- With pairwise-distinct keys the sort result is canonical: any
permutation of the input sorts to the same list. -/
theorem pySorted_eq_of_perm {c c2 : List Episode}
    (hnd : (c.map keyOf).Nodup) (hp : List.Perm c c2) :
    pySorted c = pySorted c2 := by
  have hperm : List.Perm (pySorted c) (pySorted c2) :=
    (pySorted_perm c).trans (hp.trans (pySorted_perm c2).symm)
  have hnd1 : ((pySorted c).map keyOf).Nodup :=
    (((pySorted_perm c).map keyOf).nodup_iff).mpr hnd
  have hnd2 : ((pySorted c2).map keyOf).Nodup :=
    (((pySorted_perm c2).map keyOf).nodup_iff).mpr ((hp.map keyOf).nodup_iff.mp hnd)
  exact List.eq_of_perm_of_sorted hperm
    (pairwise_keyLtP_of_sorted (pySorted_sorted c) hnd1)
    (pairwise_keyLtP_of_sorted (pySorted_sorted c2) hnd2)

/-!  The sort only inspects keys: it commutes with any key-preserving
record transformation. -/

theorem sInsert_map {f : Episode → Episode} (hf : ∀ e, keyOf (f e) = keyOf e)
    (x : Episode) (l : List Episode) :
    (sInsert x l).map f = sInsert (f x) (l.map f) := by
  induction l with
  | nil => rfl
  | cons y ys ih =>
    have hk : keyLt (f y) (f x) = keyLt y x := keyLt_congr (hf y) (hf x)
    rcases Bool.eq_false_or_eq_true (keyLt y x) with h | h
    · simp [sInsert, h, hk, ih]
    · simp [sInsert, h, hk]

theorem pySorted_map {f : Episode → Episode} (hf : ∀ e, keyOf (f e) = keyOf e)
    (l : List Episode) : (pySorted l).map f = pySorted (l.map f) := by
  induction l with
  | nil => rfl
  | cons x xs ih => simp [pySorted, sInsert_map hf, ih]

/-!  Filter engine: the loop is an ordinary stable filter by the
conjunction of the seven predicates of the spec. -/

/-- The seven predicates of the spec's Filter Engine contract, as one
conjunction: season not excluded; linearized position within
`[start, end]` inclusive; season within the allowed interval inclusive;
feature-presence flag true; heavy-secondary-character flag false;
heavy-procedural flag false; rating known and at least the minimum. -/
def passesAll (s1 e1 s2 e2 lo hi : Int) (min_imdb : ℚ) (ex : List Int)
    (ep : Episode) : Bool :=
  (ep.season ∉ ex : Bool) &&
  (s1 * 100 + e1 ≤ ep.season * 100 + ep.episode : Bool) &&
  (ep.season * 100 + ep.episode ≤ s2 * 100 + e2 : Bool) &&
  (lo ≤ ep.season ∧ ep.season ≤ hi : Bool) &&
  ep.features_george_huang &&
  !ep.heavy_finn_munch &&
  !ep.heavy_trial &&
  (match ep.imdb_rating with
   | none => false
   | some q => (min_imdb ≤ q : Bool))

theorem passesAll_eq_true_iff (s1 e1 s2 e2 lo hi : Int) (m : ℚ) (ex : List Int)
    (ep : Episode) :
    passesAll s1 e1 s2 e2 lo hi m ex ep = true ↔
      (ep.season ∉ ex ∧ in_range ep s1 e1 s2 e2 = true ∧
        (lo ≤ ep.season ∧ ep.season ≤ hi) ∧ ep.features_george_huang = true ∧
        ep.heavy_finn_munch = false ∧ ep.heavy_trial = false ∧
        ∃ q, ep.imdb_rating = some q ∧ m ≤ q) := by
  rcases hr : ep.imdb_rating with _ | q <;>
    simp [passesAll, in_range, hr, and_assoc]

theorem filterLoop_cons (s1 e1 s2 e2 : Int) (m : ℚ) (lo hi : Int) (ex : List Int)
    (ep : Episode) (rest : List Episode) :
    filterLoop s1 e1 s2 e2 m lo hi ex (ep :: rest) =
      (if passesAll s1 e1 s2 e2 lo hi m ex ep
       then ep :: filterLoop s1 e1 s2 e2 m lo hi ex rest
       else filterLoop s1 e1 s2 e2 m lo hi ex rest) := by
  have PA := passesAll_eq_true_iff s1 e1 s2 e2 lo hi m ex ep
  simp only [filterLoop]
  by_cases h1 : ex ≠ [] ∧ ep.season ∈ ex
  · rw [if_pos h1, if_neg (fun hp => (PA.mp hp).1 h1.2)]
  · have hnmem : ep.season ∉ ex := by
      intro hm
      apply h1
      refine ⟨?_, hm⟩
      intro he
      rw [he] at hm
      exact List.not_mem_nil _ hm
    rw [if_neg h1]
    by_cases h2 : ¬ in_range ep s1 e1 s2 e2 = true
    · rw [if_pos h2, if_neg (fun hp => h2 (PA.mp hp).2.1)]
    · rw [if_neg h2]
      rw [not_not] at h2
      by_cases h3 : ¬ (lo ≤ ep.season ∧ ep.season ≤ hi)
      · rw [if_pos h3, if_neg (fun hp => h3 (PA.mp hp).2.2.1)]
      · rw [if_neg h3]
        rw [not_not] at h3
        by_cases h4 : ¬ ep.features_george_huang = true
        · rw [if_pos h4, if_neg (fun hp => h4 (PA.mp hp).2.2.2.1)]
        · rw [if_neg h4]
          rw [not_not] at h4
          by_cases h5 : ep.heavy_finn_munch = true
          · rw [if_pos h5, if_neg (fun hp => absurd h5 (by simp [(PA.mp hp).2.2.2.2.1]))]
          · rw [if_neg h5]
            by_cases h6 : ep.heavy_trial = true
            · rw [if_pos h6, if_neg (fun hp => absurd h6 (by simp [(PA.mp hp).2.2.2.2.2.1]))]
            · rw [if_neg h6]
              rcases hr : ep.imdb_rating with _ | q
              · simp only [hr]
                rw [if_neg (fun hp => by
                  rcases (PA.mp hp).2.2.2.2.2.2 with ⟨q, hq, -⟩
                  rw [hr] at hq
                  cases hq)]
              · simp only [hr]
                by_cases h7 : q < m
                · rw [if_pos h7, if_neg (fun hp => by
                    rcases (PA.mp hp).2.2.2.2.2.2 with ⟨q2, hq2, hm2⟩
                    rw [hr] at hq2
                    cases hq2
                    exact absurd h7 (not_lt.mpr hm2))]
                · rw [if_neg h7, if_pos (PA.mpr ⟨hnmem, h2, h3, h4,
                    Bool.not_eq_true _ ▸ h5, Bool.not_eq_true _ ▸ h6,
                    q, hr, not_lt.mp h7⟩)]

theorem filterLoop_eq_filter (s1 e1 s2 e2 : Int) (m : ℚ) (lo hi : Int)
    (ex : List Int) (l : List Episode) :
    filterLoop s1 e1 s2 e2 m lo hi ex l =
      l.filter (passesAll s1 e1 s2 e2 lo hi m ex) := by
  induction l with
  | nil => rfl
  | cons ep rest ih => rw [filterLoop_cons, List.filter_cons, ih]

theorem filter_episodes_eq_filter (eps : List Episode) (s1 e1 s2 e2 : Int)
    (m : ℚ) (lo hi : Int) (ex : List Int) :
    filter_episodes eps (s1, e1, s2, e2) m (lo, hi) ex =
      eps.filter (passesAll s1 e1 s2 e2 lo hi m ex) :=
  filterLoop_eq_filter s1 e1 s2 e2 m lo hi ex eps

/-!  Facts about stripping, splitting and joining. -/

theorem dropWhile_append_all {p : Nat → Bool} {a : Str} (l : Str)
    (h : ∀ c ∈ a, p c = true) :
    (a ++ l).dropWhile p = l.dropWhile p := by
  induction a with
  | nil => rfl
  | cons c cs ih =>
    rw [List.cons_append, List.dropWhile_cons, if_pos (h c (List.mem_cons_self c cs))]
    exact ih (fun d hd => h d (List.mem_cons_of_mem c hd))

theorem dropWhile_append_of_ne_nil {p : Nat → Bool} {l : Str} (b : Str)
    (h : l.dropWhile p ≠ []) :
    (l ++ b).dropWhile p = l.dropWhile p ++ b := by
  induction l with
  | nil => exact absurd rfl h
  | cons c cs ih =>
    rw [List.cons_append, List.dropWhile_cons, List.dropWhile_cons]
    rw [List.dropWhile_cons] at h
    by_cases hc : p c = true
    · rw [if_pos hc, if_pos hc]
      rw [if_pos hc] at h
      exact ih h
    · rw [if_neg hc, if_neg hc]
      rfl

theorem exists_not_of_dropWhile {p : Nat → Bool} {l : Str}
    (h : ∃ c ∈ l, p c = false) : ∃ c ∈ l.dropWhile p, p c = false := by
  induction l with
  | nil => rcases h with ⟨c, hc, -⟩; cases hc
  | cons d ds ih =>
    rw [List.dropWhile_cons]
    by_cases hd : p d = true
    · rw [if_pos hd]
      rcases h with ⟨c, hc, hcp⟩
      rcases List.mem_cons.mp hc with rfl | hc
      · exact absurd hd (by simp [hcp])
      · exact ih ⟨c, hc, hcp⟩
    · rw [if_neg hd]
      exact ⟨d, List.mem_cons_self d ds, Bool.not_eq_true _ ▸ hd⟩

theorem pyStrip_ne_nil {l : Str} (h : ∃ c ∈ l, isWs c = false) :
    pyStrip l ≠ [] := by
  unfold pyStrip
  have h1 := exists_not_of_dropWhile h
  have h2 : ∃ c ∈ (l.dropWhile isWs).reverse, isWs c = false := by
    rcases h1 with ⟨c, hc, hcp⟩
    exact ⟨c, List.mem_reverse.mpr hc, hcp⟩
  have h3 := exists_not_of_dropWhile h2
  rcases h3 with ⟨c, hc, -⟩
  intro hnil
  rw [List.reverse_eq_nil_iff] at hnil
  rw [hnil] at hc
  exact List.not_mem_nil c hc

theorem pyStrip_ws_left {a : Str} (l : Str) (h : ∀ c ∈ a, isWs c = true) :
    pyStrip (a ++ l) = pyStrip l := by
  unfold pyStrip
  rw [dropWhile_append_all l h]

theorem pyStrip_ws_right {b : Str} (l : Str) (h : ∀ c ∈ b, isWs c = true) :
    pyStrip (l ++ b) = pyStrip l := by
  unfold pyStrip
  by_cases hl : l.dropWhile isWs = []
  · rw [hl, List.reverse_nil, List.dropWhile_nil, List.reverse_nil]
    have : (l ++ b).dropWhile isWs = b.dropWhile isWs := by
      have hall : ∀ c ∈ l, isWs c = true := by
        rw [← List.dropWhile_eq_nil_iff]
        exact hl
      exact dropWhile_append_all b hall
    rw [this]
    have hb : b.dropWhile isWs = [] := List.dropWhile_eq_nil_iff.mpr h
    rw [hb, List.reverse_nil, List.dropWhile_nil, List.reverse_nil]
  · rw [dropWhile_append_of_ne_nil b hl, List.reverse_append,
      dropWhile_append_all (l.dropWhile isWs).reverse
        (fun c hc => h c (List.mem_reverse.mp hc))]

theorem isWs_asciiLower (c : Nat) : isWs (asciiLower c) = isWs c := by
  unfold asciiLower
  by_cases h : 65 ≤ c ∧ c ≤ 90
  · rw [if_pos h]
    have h1 : isWs (c + 32) = false := by
      simp only [isWs, Bool.or_eq_false_iff, beq_eq_false_iff_ne, ne_eq]
      omega
    have h2 : isWs c = false := by
      simp only [isWs, Bool.or_eq_false_iff, beq_eq_false_iff_ne, ne_eq]
      omega
    rw [h1, h2]
  · rw [if_neg h]

theorem asciiUpper_asciiLower (c : Nat) : asciiUpper (asciiLower c) = asciiUpper c := by
  unfold asciiLower asciiUpper
  split_ifs <;> omega

theorem upperStr_lowerStr (s : Str) : upperStr (lowerStr s) = upperStr s := by
  unfold upperStr lowerStr
  rw [List.map_map]
  exact List.map_congr_left (fun c _ => asciiUpper_asciiLower c)

theorem pyStrip_lowerStr (s : Str) : pyStrip (lowerStr s) = lowerStr (pyStrip s) := by
  unfold pyStrip lowerStr
  rw [List.dropWhile_map, ← List.map_reverse, List.dropWhile_map, ← List.map_reverse]
  have hpred : (isWs ∘ asciiLower) = isWs := funext isWs_asciiLower
  rw [hpred]

theorem asciiLower_eq_gt {c : Nat} (h : asciiLower c = 62) : c = 62 := by
  unfold asciiLower at h
  by_cases hc : 65 ≤ c ∧ c ≤ 90
  · rw [if_pos hc] at h; omega
  · rw [if_neg hc] at h; exact h

/-!  Facts about `splitOnPred`. -/

theorem splitOnPred_ne_nil (p : Nat → Bool) (s : Str) : splitOnPred p s ≠ [] := by
  induction s with
  | nil => simp [splitOnPred]
  | cons c cs ih =>
    rw [splitOnPred]
    by_cases hc : p c = true
    · rw [if_pos hc]; simp
    · rw [if_neg hc]
      match hm : splitOnPred p cs with
      | [] => simp
      | w :: ws => simp

theorem mem_splitOnPred {p : Nat → Bool} {s w : Str} (hw : w ∈ splitOnPred p s) :
    ∀ c ∈ w, p c = false := by
  induction s generalizing w with
  | nil =>
    rw [splitOnPred] at hw
    rcases List.mem_singleton.mp hw with rfl
    intro c hc
    cases hc
  | cons d ds ih =>
    rw [splitOnPred] at hw
    by_cases hd : p d = true
    · rw [if_pos hd] at hw
      rcases List.mem_cons.mp hw with rfl | hw
      · intro c hc; cases hc
      · exact ih hw
    · rw [if_neg hd] at hw
      match hm : splitOnPred p ds with
      | [] => exact absurd hm (splitOnPred_ne_nil p ds)
      | v :: vs =>
        rw [hm] at hw
        rcases List.mem_cons.mp hw with rfl | hw
        · intro c hc
          rcases List.mem_cons.mp hc with rfl | hc
          · exact Bool.not_eq_true _ ▸ hd
          · exact ih (hm ▸ List.mem_cons_self v vs) c hc
        · exact ih (hm ▸ List.mem_cons_of_mem v hw)

theorem splitOnPred_all_not {p : Nat → Bool} {s : Str}
    (h : ∀ c ∈ s, p c = false) : splitOnPred p s = [s] := by
  induction s with
  | nil => rfl
  | cons c cs ih =>
    rw [splitOnPred, if_neg (by simp [h c (List.mem_cons_self c cs)]),
      ih (fun d hd => h d (List.mem_cons_of_mem c hd))]

theorem splitOnPred_append {p : Nat → Bool} {a : Str} (c0 : Nat) (b : Str)
    (ha : ∀ c ∈ a, p c = false) (hc0 : p c0 = true) :
    splitOnPred p (a ++ c0 :: b) = a :: splitOnPred p b := by
  induction a with
  | nil => rw [List.nil_append, splitOnPred, if_pos hc0]
  | cons d ds ih =>
    rw [List.cons_append, splitOnPred,
      if_neg (by simp [ha d (List.mem_cons_self d ds)]),
      ih (fun e he => ha e (List.mem_cons_of_mem d he))]

theorem exists_segment_of_mem {p : Nat → Bool} {s : Str} {c : Nat}
    (hc : c ∈ s) (hcp : p c = false) : ∃ w ∈ splitOnPred p s, c ∈ w := by
  induction s with
  | nil => cases hc
  | cons d ds ih =>
    rw [splitOnPred]
    by_cases hd : p d = true
    · rw [if_pos hd]
      rcases List.mem_cons.mp hc with rfl | hc2
      · exact absurd hd (by simp [hcp])
      · rcases ih hc2 with ⟨w, hw, hcw⟩
        exact ⟨w, List.mem_cons_of_mem [] hw, hcw⟩
    · rw [if_neg hd]
      match hm : splitOnPred p ds with
      | [] => exact absurd hm (splitOnPred_ne_nil p ds)
      | w0 :: ws0 =>
        rcases List.mem_cons.mp hc with rfl | hc2
        · exact ⟨c :: w0, List.mem_cons_self _ _, List.mem_cons_self c w0⟩
        · rcases ih hc2 with ⟨w, hw, hcw⟩
          rw [hm] at hw
          rcases List.mem_cons.mp hw with rfl | hw2
          · exact ⟨d :: w, List.mem_cons_self _ _, List.mem_cons_of_mem d hcw⟩
          · exact ⟨w, List.mem_cons_of_mem _ hw2, hcw⟩

theorem mem_splitWs {s w : Str} (hw : w ∈ splitWs s) :
    w ≠ [] ∧ ∀ c ∈ w, isWs c = false := by
  unfold splitWs at hw
  refine ⟨by simpa using (List.mem_filter.mp hw).2, ?_⟩
  exact mem_splitOnPred (List.mem_filter.mp hw).1

theorem splitWs_ne_nil {s : Str} (h : ∃ c ∈ s, isWs c = false) :
    splitWs s ≠ [] := by
  rcases h with ⟨c, hc, hcp⟩
  rcases exists_segment_of_mem hc hcp with ⟨w, hw, hcw⟩
  unfold splitWs
  intro hnil
  have : w ∈ (splitOnPred isWs s).filter (fun w => w ≠ []) :=
    List.mem_filter.mpr ⟨hw, by simp; intro he; rw [he] at hcw; cases hcw⟩
  rw [hnil] at this
  exact List.not_mem_nil w this

theorem mem_joinWords_head {w : Str} {d : Nat} (ws : List Str) (hd : d ∈ w) :
    d ∈ joinWords (w :: ws) := by
  match ws with
  | [] => exact hd
  | v :: vs => exact List.mem_append_left _ hd

theorem joinWords_ne_nil {w : Str} (ws : List Str) (hw : w ≠ []) :
    joinWords (w :: ws) ≠ [] := by
  match hm : w with
  | [] => exact absurd rfl hw
  | c :: t =>
    intro hnil
    have := mem_joinWords_head ws (List.mem_cons_self c t)
    rw [hnil] at this
    exact List.not_mem_nil c this

/-!  The detail expander delivers four non-empty bullets whenever the
sentence has a non-whitespace character. -/

theorem chunkBullets_length_le (words : List Str) (approx : Nat) :
    (chunkBullets words approx).length ≤ 4 := by
  unfold chunkBullets
  calc (List.filterMap _ (List.range 4)).length ≤ (List.range 4).length :=
        List.length_filterMap_le _ _
    _ = 4 := by rw [List.length_range]

theorem chunkBullets_forall_ne_nil {words : List Str}
    (hws : ∀ w ∈ words, w ≠ [] ∧ ∀ c ∈ w, isWs c = false) (approx : Nat) :
    ∀ b ∈ chunkBullets words approx, b ≠ [] := by
  intro b hb
  unfold chunkBullets at hb
  rcases List.mem_filterMap.mp hb with ⟨i, -, hfi⟩
  by_cases hch : joinWords ((words.drop (i * approx)).take approx) = []
  · rw [if_pos hch] at hfi
    cases hfi
  · rw [if_neg hch] at hfi
    have hb2 : b = pyStrip (joinWords ((words.drop (i * approx)).take approx)) :=
      (Option.some_injective _ hfi).symm
    match hsl : (words.drop (i * approx)).take approx with
    | [] => rw [hsl] at hch; exact absurd rfl hch
    | w :: rest =>
      have hwmem : w ∈ words :=
        List.mem_of_mem_drop (List.mem_of_mem_take (hsl ▸ List.mem_cons_self w rest))
      rcases hws w hwmem with ⟨hwne, hwall⟩
      match hw : w with
      | [] => exact absurd rfl hwne
      | c :: t =>
        have hcmem : c ∈ joinWords ((words.drop (i * approx)).take approx) := by
          rw [hsl]
          exact mem_joinWords_head rest (List.mem_cons_self c t)
        rw [hb2]
        exact pyStrip_ne_nil ⟨c, hcmem, hwall c (hw ▸ List.mem_cons_self c t)⟩

theorem chunkBullets_ne_nil {words : List Str} {approx : Nat}
    (hne : words ≠ []) (hw0 : ∀ w ∈ words, w ≠ []) (ha : 1 ≤ approx) :
    chunkBullets words approx ≠ [] := by
  obtain ⟨w, rest, rfl⟩ : ∃ w rest, words = w :: rest := by
    match words, hne with
    | w :: rest, _ => exact ⟨w, rest, rfl⟩
  have htake : ((w :: rest).drop (0 * approx)).take approx =
      w :: rest.take (approx - 1) := by
    rw [Nat.zero_mul, List.drop_zero]
    match approx, ha with
    | n + 1, _ => rw [List.take_succ_cons, Nat.add_sub_cancel]
  have hch : joinWords (((w :: rest).drop (0 * approx)).take approx) ≠ [] := by
    rw [htake]
    exact joinWords_ne_nil _ (hw0 w (List.mem_cons_self w rest))
  intro hnil
  have h0 : pyStrip (joinWords (((w :: rest).drop (0 * approx)).take approx)) ∈
      chunkBullets (w :: rest) approx := by
    unfold chunkBullets
    refine List.mem_filterMap.mpr ⟨0, by simp, ?_⟩
    rw [if_neg hch]
  rw [hnil] at h0
  exact List.not_mem_nil _ h0

theorem expand_sentence_four {s : Str} (h : ∃ c ∈ s, isWs c = false) :
    ∃ bs, expand_sentence_to_bullets s = some bs ∧ bs.length = 4 ∧
      ∀ b ∈ bs, b ≠ [] := by
  have hs : s ≠ [] := by
    rcases h with ⟨c, hc, -⟩
    intro he
    rw [he] at hc
    exact List.not_mem_nil c hc
  unfold expand_sentence_to_bullets
  rw [if_neg hs]
  by_cases hlen : (clauseParts s).length < 4
  · rw [if_pos hlen]
    have hwne : splitWs s ≠ [] := splitWs_ne_nil h
    have hbne : chunksOf s ≠ [] := by
      unfold chunksOf
      exact chunkBullets_ne_nil hwne (fun w hw => (mem_splitWs hw).1) (le_max_left 1 _)
    have hble : (chunksOf s).length ≤ 4 := chunkBullets_length_le _ _
    have hball : ∀ b ∈ chunksOf s, b ≠ [] := by
      unfold chunksOf
      exact chunkBullets_forall_ne_nil (fun w hw => mem_splitWs hw) _
    rcases hlast : (chunksOf s).getLast? with _ | last
    · exact absurd (List.getLast?_isSome.mpr hbne) (by rw [hlast]; simp)
    · refine ⟨_, rfl, ?_, ?_⟩
      · rw [List.length_take, List.length_append, List.length_replicate]
        omega
      · intro b hb
        have hb2 : b ∈ chunksOf s ++ List.replicate (4 - (chunksOf s).length) last :=
          List.mem_of_mem_take hb
        rcases List.mem_append.mp hb2 with hb3 | hb3
        · exact hball b hb3
        · rw [List.eq_of_mem_replicate hb3]
          exact hball last (List.mem_of_mem_getLast? hlast)
  · rw [if_neg hlen]
    refine ⟨_, rfl, ?_, ?_⟩
    · rw [List.length_take]
      omega
    · intro b hb
      have hbp : b ∈ clauseParts s := List.mem_of_mem_take hb
      unfold clauseParts at hbp
      have := List.of_mem_filter hbp
      simpa using this

/-!  Analysis of the range parser. -/

theorem dropWhile_head_false {p : Nat → Bool} {l xs : Str} {x : Nat}
    (h : l.dropWhile p = x :: xs) : p x = false := by
  induction l with
  | nil => cases h
  | cons c cs ih =>
    rw [List.dropWhile_cons] at h
    by_cases hc : p c = true
    · rw [if_pos hc] at h
      exact ih h
    · rw [if_neg hc] at h
      cases h
      exact Bool.not_eq_true _ ▸ hc

theorem takeWhile_append_sep (p : Nat → Bool) {sd : Str} (c0 : Nat) (ed : Str)
    (hsd : ∀ c ∈ sd, p c = true) (hc0 : p c0 = false) :
    (sd ++ c0 :: ed).takeWhile p = sd ∧ (sd ++ c0 :: ed).dropWhile p = c0 :: ed := by
  induction sd with
  | nil =>
    rw [List.nil_append]
    constructor
    · rw [List.takeWhile_cons, if_neg (by simp [hc0])]
    · rw [List.dropWhile_cons, if_neg (by simp [hc0])]
  | cons d ds ih =>
    have hd : p d = true := hsd d (List.mem_cons_self d ds)
    have ihr := ih (fun c hc => hsd c (List.mem_cons_of_mem d hc))
    constructor
    · rw [List.cons_append, List.takeWhile_cons, if_pos hd, ihr.1]
    · rw [List.cons_append, List.dropWhile_cons, if_pos hd, ihr.2]

/-- A side of the range expression is well-formed in the sense of the
spec: after stripping and uppercasing it reads `S`, then a season group
with no `E`, then `E`, then an episode group, and both groups parse as
Python integers. -/
def sideWellFormed (t : Str) : Prop :=
  ∃ sd ed, seNormalize t = 83 :: (sd ++ 69 :: ed) ∧ 69 ∉ sd ∧
    (pyInt sd).isSome = true ∧ (pyInt ed).isSome = true

theorem seCore_cons (c : Nat) (rest : Str) :
    seCore (c :: rest) = if c = 83 then seSplit rest else none := rfl

theorem seSplit_of_dropWhile_nil {rest : Str} (h : rest.dropWhile neqE = []) :
    seSplit rest = none := by
  unfold seSplit
  rw [h]

theorem seSplit_of_dropWhile_cons {rest : Str} {x : Nat} {ed : Str}
    (h : rest.dropWhile neqE = x :: ed) :
    seSplit rest = seAfterE (rest.takeWhile neqE) ed := by
  unfold seSplit
  rw [h]

theorem seAfterE_eq_some {sd ed : Str} {a b : Int}
    (h1 : pyInt sd = some a) (h2 : pyInt ed = some b) :
    seAfterE sd ed = some (a, b) := by
  unfold seAfterE
  rw [h1, h2]

theorem seAfterE_isSome {sd ed : Str} (h : (seAfterE sd ed).isSome = true) :
    (pyInt sd).isSome = true ∧ (pyInt ed).isSome = true := by
  unfold seAfterE at h
  rcases h1 : pyInt sd with _ | a
  · rw [h1] at h
    rcases h2 : pyInt ed with _ | b <;> rw [h2] at h <;> cases h
  · rcases h2 : pyInt ed with _ | b
    · rw [h1, h2] at h
      cases h
    · exact ⟨rfl, rfl⟩

theorem sideWellFormed_iff (t : Str) :
    sideWellFormed t ↔ (se_to_tuple t).isSome = true := by
  unfold sideWellFormed se_to_tuple
  constructor
  · rintro ⟨sd, ed, hdecomp, hnot, hsd, hed⟩
    rw [hdecomp]
    have hsep := takeWhile_append_sep neqE 69 ed
      (fun c hc => by
        simp only [neqE, bne_iff_ne, ne_eq, decide_eq_true_eq]
        intro he
        exact hnot (he ▸ hc))
      (by simp [neqE])
    rw [seCore_cons, if_pos rfl, seSplit_of_dropWhile_cons hsep.2, hsep.1]
    rcases hs1 : pyInt sd with _ | a
    · rw [hs1] at hsd; cases hsd
    · rcases hs2 : pyInt ed with _ | b
      · rw [hs2] at hed; cases hed
      · rw [seAfterE_eq_some hs1 hs2]
        rfl
  · intro h
    rcases hu : seNormalize t with _ | ⟨c, rest⟩
    · rw [hu] at h; cases h
    · rw [hu, seCore_cons] at h
      by_cases hc : c = 83
      · rw [if_pos hc] at h
        rcases hdw : rest.dropWhile neqE with _ | ⟨x, ed⟩
        · rw [seSplit_of_dropWhile_nil hdw] at h; cases h
        · rw [seSplit_of_dropWhile_cons hdw] at h
          have hx : x = 69 := by
            have := dropWhile_head_false hdw
            simpa [neqE] using this
          rcases seAfterE_isSome h with ⟨hsd, hed⟩
          refine ⟨rest.takeWhile neqE, ed, ?_, ?_, hsd, hed⟩
          · rw [hc]
            have hre : rest = rest.takeWhile neqE ++ rest.dropWhile neqE :=
              (List.takeWhile_append_dropWhile _ _).symm
            rw [hx] at hdw
            nth_rewrite 1 [hre]
            rw [hdw]
          · intro hmem
            have := List.mem_takeWhile_imp hmem
            simp [neqE] at this
      · rw [if_neg hc] at h
        cases h

instance sideWellFormed.dec (t : Str) : Decidable (sideWellFormed t) :=
  decidable_of_iff _ (sideWellFormed_iff t).symm

theorem parse_range_of_splitGt {s l r : Str} (h : splitGt s = [l, r]) :
    parse_range s = parseSides s l r := by
  unfold parse_range
  rw [h]

theorem parseSides_some_some {l r : Str} {s1 e1 s2 e2 : Int} (s : Str)
    (h1 : se_to_tuple l = some (s1, e1)) (h2 : se_to_tuple r = some (s2, e2)) :
    parseSides s l r =
      (if s2 < s1 ∨ (s2 = s1 ∧ e2 < e1) then .error (.invalidOrder (argErrMsg s))
       else .ok (s1, e1, s2, e2)) := by
  unfold parseSides
  rw [h1, h2]

theorem parseSides_none_left {l : Str} (s r : Str) (h : se_to_tuple l = none) :
    parseSides s l r = .error (.invalidFormat (argErrMsg s)) := by
  unfold parseSides
  rw [h]

theorem parseSides_none_right {r : Str} (s l : Str) (h : se_to_tuple r = none) :
    parseSides s l r = .error (.invalidFormat (argErrMsg s)) := by
  unfold parseSides
  rw [h]
  rcases h1 : se_to_tuple l with _ | ⟨a, b⟩ <;> rfl

/-!  Normalization invariance of a side: stripping absorbs surrounding
whitespace, and uppercasing absorbs a lowercased variant. -/

theorem seNormalize_ws (wsa wsb l : Str) (ha : ∀ c ∈ wsa, isWs c = true)
    (hb : ∀ c ∈ wsb, isWs c = true) :
    seNormalize (wsa ++ l ++ wsb) = seNormalize l := by
  unfold seNormalize
  rw [List.append_assoc, pyStrip_ws_left (l ++ wsb) ha, pyStrip_ws_right l hb]

theorem seNormalize_lower (l : Str) : seNormalize (lowerStr l) = seNormalize l := by
  unfold seNormalize
  rw [pyStrip_lowerStr, upperStr_lowerStr]

theorem se_to_tuple_ws (wsa wsb l : Str) (ha : ∀ c ∈ wsa, isWs c = true)
    (hb : ∀ c ∈ wsb, isWs c = true) :
    se_to_tuple (wsa ++ l ++ wsb) = se_to_tuple l := by
  unfold se_to_tuple
  rw [seNormalize_ws wsa wsb l ha hb]

theorem se_to_tuple_lower (l : Str) : se_to_tuple (lowerStr l) = se_to_tuple l := by
  unfold se_to_tuple
  rw [seNormalize_lower]

theorem splitGt_pair {l r : Str} (hl : 62 ∉ l) (hr : 62 ∉ r) :
    splitGt (l ++ 62 :: r) = [l, r] := by
  unfold splitGt
  rw [splitOnPred_append 62 r
    (fun c hc => by
      simp only [beq_eq_false_iff_ne, ne_eq]
      intro he
      exact hl (he ▸ hc))
    (by simp)]
  rw [splitOnPred_all_not
    (fun c hc => by
      simp only [beq_eq_false_iff_ne, ne_eq]
      intro he
      exact hr (he ▸ hc))]

theorem isWs_ne_gt {c : Nat} (h : isWs c = true) : c ≠ 62 := by
  simp only [isWs, Bool.or_eq_true, beq_iff_eq] at h
  omega

theorem not_mem_gt_lowerStr {l : Str} (h : 62 ∉ l) : 62 ∉ lowerStr l := by
  intro hm
  rcases List.mem_map.mp hm with ⟨c, hc, hlc⟩
  exact h (asciiLower_eq_gt hlc ▸ hc)

/-!  The `--details` lookup is `find?` on the case-folded title. -/

theorem details_lookup_eq_head (eps : List Episode) (q : Str) :
    details_lookup eps q =
      (eps.filter (fun e => lowerStr e.title = lowerStr (pyStrip q))).head? := by
  unfold details_lookup
  rcases h : eps.filter (fun e => lowerStr e.title = lowerStr (pyStrip q)) with _ | ⟨e, t⟩ <;>
    rw [h] <;> rfl

theorem head_filter_eq_find {α : Type} (p : α → Bool) (l : List α) :
    (l.filter p).head? = l.find? p := by
  induction l with
  | nil => rfl
  | cons a t ih =>
    rw [List.filter_cons]
    by_cases hp : p a = true
    · rw [if_pos hp, List.find?_cons_of_pos _ hp]
      rfl
    · rw [if_neg hp, List.find?_cons_of_neg _ (by simp [hp]), ih]

/-!  The ranking order, phrased as the spec does: rating descending,
ties broken by title ascending. -/

/-- `a` may precede `b` in ranked output: `a`'s rating is higher, or
ratings are equal and `a`'s title is not after `b`'s. -/
def rankLE (a b : Episode) : Prop :=
  b.imdb_rating.getD 0 < a.imdb_rating.getD 0 ∨
    (a.imdb_rating.getD 0 = b.imdb_rating.getD 0 ∧ strLt b.title a.title = false)

theorem keyLE_iff_rankLE (a b : Episode) : keyLE a b ↔ rankLE a b := by
  unfold keyLE rankLE
  rw [keyLt_eq_false_iff]
  unfold ratingKey
  constructor
  · rintro (h | ⟨h1, h2⟩)
    · exact Or.inl (by exact_mod_cast neg_lt_neg_iff.mp h)
    · exact Or.inr ⟨by exact_mod_cast neg_inj.mp h1.symm, h2⟩
  · rintro (h | ⟨h1, h2⟩)
    · exact Or.inl (neg_lt_neg h)
    · exact Or.inr ⟨congrArg Neg.neg h1.symm, h2⟩

/-- The source's backfill of an absent rating by `0.0`, as a record map. -/
def fixRating (e : Episode) : Episode :=
  match e.imdb_rating with
  | none => { e with imdb_rating := some 0 }
  | some _ => e

theorem keyOf_fixRating (e : Episode) : keyOf (fixRating e) = keyOf e := by
  unfold fixRating keyOf ratingKey
  rcases h : e.imdb_rating with _ | q <;> simp [h]

/-!  Shared concrete record builder for examples. -/

/-- A concrete record with the given title, air date and rating; all
flags set so it passes the boolean filters. -/
def mkEp (ti ad : Str) (rt : Option ℚ) : Episode :=
  { season := 3, episode := 1, title := ti, air_date := ad, imdb_id := [],
    imdb_rating := rt, features_george_huang := true, heavy_finn_munch := false,
    heavy_trial := false, one_sentence_plot := str "p",
    one_sentence_reason := str "r" }

/-!  The claims. -/

theorem intField_none : intField none = some 0 := rfl

theorem intField_some (s : Str) :
    intField (some s) = if s = [] then some 0 else pyInt s := rfl

/-- C1 (amended): `normalize_row` gives season/episode the default `0`
exactly when the field is absent or the empty string; a present,
non-empty field must parse as a Python integer — otherwise the
normalizer raises (`none`) — and the parsed value is used unchanged, so
it may be negative. -/
theorem C1_normalize_int_fields (r : Row) :
    ((r.season = none ∨ r.season = some []) → (r.episode = none ∨ r.episode = some []) →
      ∃ rec, normalize_row r = some rec ∧ rec.season = 0 ∧ rec.episode = 0)
    ∧ (∀ s, r.season = some s → s ≠ [] → pyInt s = none → normalize_row r = none)
    ∧ (∀ rec, normalize_row r = some rec →
        ((r.season = none ∨ r.season = some []) → rec.season = 0) ∧
        (∀ s, r.season = some s → s ≠ [] → pyInt s = some rec.season) ∧
        ((r.episode = none ∨ r.episode = some []) → rec.episode = 0) ∧
        (∀ s, r.episode = some s → s ≠ [] → pyInt s = some rec.episode)) := by
  refine ⟨?_, ?_, ?_⟩
  · intro h1 h2
    unfold normalize_row
    have hs : intField r.season = some 0 := by
      rcases h1 with h | h
      · rw [h, intField_none]
      · rw [h, intField_some, if_pos rfl]
    have he : intField r.episode = some 0 := by
      rcases h2 with h | h
      · rw [h, intField_none]
      · rw [h, intField_some, if_pos rfl]
    rw [hs, he]
    exact ⟨_, rfl, rfl, rfl⟩
  · intro s hse hne hpy
    unfold normalize_row
    have hs : intField r.season = none := by
      rw [hse, intField_some, if_neg hne, hpy]
    rw [hs]
  · intro rec hrec
    unfold normalize_row at hrec
    rcases hs : intField r.season with _ | se
    · rw [hs] at hrec; cases hrec
    · rcases he : intField r.episode with _ | ep
      · rw [hs, he] at hrec; cases hrec
      · rw [hs, he] at hrec
        have hrec2 := Option.some.inj hrec
        refine ⟨?_, ?_, ?_, ?_⟩
        · intro h1
          rw [← hrec2]
          rcases h1 with h | h
          · rw [h, intField_none] at hs
            exact (Option.some.inj hs).symm
          · rw [h, intField_some, if_pos rfl] at hs
            exact (Option.some.inj hs).symm
        · intro s hse hne
          rw [← hrec2]
          rw [hse, intField_some, if_neg hne] at hs
          exact hs
        · intro h2
          rw [← hrec2]
          rcases h2 with h | h
          · rw [h, intField_none] at he
            exact (Option.some.inj he).symm
          · rw [h, intField_some, if_pos rfl] at he
            exact (Option.some.inj he).symm
        · intro s hse hne
          rw [← hrec2]
          rw [hse, intField_some, if_neg hne] at he
          exact he

/-- C1 witness: the empty row normalizes with both defaults `0`. -/
theorem C1_normalize_int_fields_witness :
    (({} : Row).season = none ∨ ({} : Row).season = some []) ∧
    ∃ rec, normalize_row {} = some rec ∧ rec.season = 0 ∧ rec.episode = 0 :=
  ⟨Or.inl rfl, (C1_normalize_int_fields {}).1 (Or.inl rfl) (Or.inl rfl)⟩

/-- C1 counterexample: a non-empty unparseable season makes
`normalize_row` raise instead of defaulting to `0`, and a parseable
negative season is kept negative — both contradicting the claim. -/
theorem C1_counterexample :
    normalize_row { season := some (str "x") } = none ∧
    (normalize_row { season := some (str "-3") }).map Episode.season = some (-3) := by
  constructor
  · rfl
  · rfl

/-- C2 (amended): for a record whose free-text fields each contain at
least one non-whitespace character, `details_expand` succeeds with
exactly 4 non-empty plot bullets and 4 non-empty reason bullets; on a
non-empty but all-whitespace field it raises instead (see the
counterexample). -/
theorem C2_details_expand_four (ep : Episode)
    (hp : ∃ c ∈ ep.one_sentence_plot, isWs c = false)
    (hr : ∃ c ∈ ep.one_sentence_reason, isWs c = false) :
    ∃ pb rb, details_expand ep = some (pb, rb) ∧ pb.length = 4 ∧ rb.length = 4 ∧
      (∀ b ∈ pb, b ≠ []) ∧ (∀ b ∈ rb, b ≠ []) := by
  rcases expand_sentence_four hp with ⟨pb, hpb, hpl, hpn⟩
  rcases expand_sentence_four hr with ⟨rb, hrb, hrl, hrn⟩
  refine ⟨pb, rb, ?_, hpl, hrl, hpn, hrn⟩
  unfold details_expand
  rw [hpb, hrb]

/-- C2 witness: a one-word plot and reason still expand to 4+4 non-empty
bullets. -/
theorem C2_details_expand_four_witness :
    (∃ c ∈ (mkEp (str "T") (str "a") (some 8)).one_sentence_plot, isWs c = false) ∧
    ∃ pb rb, details_expand (mkEp (str "T") (str "a") (some 8)) = some (pb, rb) ∧
      pb.length = 4 ∧ rb.length = 4 ∧ (∀ b ∈ pb, b ≠ []) ∧ (∀ b ∈ rb, b ≠ []) :=
  ⟨by decide, C2_details_expand_four (mkEp (str "T") (str "a") (some 8))
    (by decide) (by decide)⟩

/-- C2 counterexample: a single-space plot field is a non-empty string,
yet the expander raises (`none`) instead of returning 4 bullets. -/
theorem C2_counterexample :
    str " " ≠ [] ∧
    details_expand { mkEp (str "T") (str "a") (some 8) with
      one_sentence_plot := str " " } = none := by
  constructor
  · decide
  · rfl

/-- C3 (amended): once both endpoints parse, the order error is raised
exactly when the end point is lexicographically below the start point
(`s2 < s1`, or `s2 = s1` and `e2 < e1`); otherwise the quadruple is
returned unchanged.  The lexicographic test agrees with the claim's
linearized comparison `s2*100+e2 < s1*100+e1` whenever both episode
numbers lie in `[0, 100)`, but not in general (see the counterexample). -/
theorem C3_order_check (s l r : Str) (s1 e1 s2 e2 : Int)
    (hsg : splitGt s = [l, r]) (h1 : se_to_tuple l = some (s1, e1))
    (h2 : se_to_tuple r = some (s2, e2)) :
    (parse_range s = .error (.invalidOrder (argErrMsg s)) ↔
      (s2 < s1 ∨ (s2 = s1 ∧ e2 < e1)))
    ∧ (¬(s2 < s1 ∨ (s2 = s1 ∧ e2 < e1)) → parse_range s = .ok (s1, e1, s2, e2))
    ∧ (0 ≤ e1 → e1 < 100 → 0 ≤ e2 → e2 < 100 →
        ((s2 < s1 ∨ (s2 = s1 ∧ e2 < e1)) ↔ s2 * 100 + e2 < s1 * 100 + e1)) := by
  rw [parse_range_of_splitGt hsg, parseSides_some_some s h1 h2]
  refine ⟨?_, ?_, ?_⟩
  · by_cases hord : s2 < s1 ∨ (s2 = s1 ∧ e2 < e1)
    · rw [if_pos hord]
      simp [hord]
    · rw [if_neg hord]
      simp [hord]
  · intro hord
    rw [if_neg hord]
  · intro hb1 hb2 hb3 hb4
    omega

/-- C3 witness: `S3E5>S3E4` has a descending end point and fails with
the order error. -/
theorem C3_order_check_witness :
    splitGt (str "S3E5>S3E4") = [str "S3E5", str "S3E4"] ∧
    se_to_tuple (str "S3E5") = some (3, 5) ∧
    se_to_tuple (str "S3E4") = some (3, 4) ∧
    parse_range (str "S3E5>S3E4") =
      .error (.invalidOrder (argErrMsg (str "S3E5>S3E4"))) := by
  refine ⟨by decide, by decide, by decide, ?_⟩
  exact (C3_order_check (str "S3E5>S3E4") (str "S3E5") (str "S3E4") 3 5 3 4
    (by decide) (by decide) (by decide)).1.mpr (by omega)

/-- C3 counterexample: with an episode number of `150` the linearized
end point `2*100+0 = 200` is strictly below the linearized start point
`1*100+150 = 250`, yet the parser accepts the range — the source
compares lexicographically, not by linearized position. -/
theorem C3_counterexample :
    parse_range (str "S1E150>S2E0") = .ok (1, 150, 2, 0) ∧
    (2 * 100 + 0 : Int) < 1 * 100 + 150 := by
  constructor
  · rfl
  · decide

/-- C4: the Filter Engine returns exactly the records passing all seven
predicates of the contract, as a stable `List.filter` over the input —
so relative order is preserved and an empty result is an ordinary value,
not an error. -/
theorem C4_filter_exact (eps : List Episode) (s1 e1 s2 e2 : Int) (m : ℚ)
    (lo hi : Int) (ex : List Int) :
    filter_episodes eps (s1, e1, s2, e2) m (lo, hi) ex =
      eps.filter (passesAll s1 e1 s2 e2 lo hi m ex) :=
  filter_episodes_eq_filter eps s1 e1 s2 e2 m lo hi ex

/-- C6: the Filter Engine is idempotent — filtering its own output with
the same parameters returns the identical sequence. -/
theorem C6_filter_idempotent (eps : List Episode) (s1 e1 s2 e2 : Int) (m : ℚ)
    (lo hi : Int) (ex : List Int) :
    filter_episodes (filter_episodes eps (s1, e1, s2, e2) m (lo, hi) ex)
        (s1, e1, s2, e2) m (lo, hi) ex =
      filter_episodes eps (s1, e1, s2, e2) m (lo, hi) ex := by
  have h := filter_episodes_eq_filter eps s1 e1 s2 e2 m lo hi ex
  rw [h, filter_episodes_eq_filter, List.filter_filter]
  exact List.filter_congr (fun a _ => Bool.and_self _)

/-- C5 (amended): the Ranker returns the first `N` of the full stable
sort by rating descending with ties by title ascending: truncation
happens only after the full sort, the full sort is a permutation of the
candidates ordered by `rankLE`, fewer than `N` candidates are returned
whole, the output length is `min N (length)`, and the output is
independent of the input order provided no two candidates share both
rating and title (full-key ties are broken by input order — see the
counterexample). -/
theorem C5_rank_characterization (c : List Episode) (n : Nat)
    (hkn : ∀ e ∈ c, (e.imdb_rating).isSome = true) (hn : 1 ≤ n) :
    rank_and_select c n = (rank_and_select c c.length).take n
    ∧ List.Perm (rank_and_select c c.length) c
    ∧ List.Sorted rankLE (rank_and_select c c.length)
    ∧ (c.length ≤ n → rank_and_select c n = rank_and_select c c.length)
    ∧ (rank_and_select c n).length = min n c.length
    ∧ (∀ c2, List.Perm c c2 → (c.map keyOf).Nodup →
        rank_and_select c2 n = rank_and_select c n) := by
  have hlen : (pySorted c).length = c.length := (pySorted_perm c).length_eq
  have hfull : rank_and_select c c.length = pySorted c := by
    unfold rank_and_select
    rw [← hlen]
    exact List.take_length _
  refine ⟨?_, ?_, ?_, ?_, ?_, ?_⟩
  · rw [hfull]
    rfl
  · rw [hfull]
    exact pySorted_perm c
  · rw [hfull]
    exact (pySorted_sorted c).imp (fun h => (keyLE_iff_rankLE _ _).mp h)
  · intro hle
    rw [hfull]
    unfold rank_and_select
    exact List.take_of_length_le (by rw [hlen]; exact hle)
  · unfold rank_and_select
    rw [List.length_take, hlen]
  · intro c2 hp hnd
    unfold rank_and_select
    rw [pySorted_eq_of_perm hnd hp]

/-- C5 witness: two distinct-rating candidates, `N = 1`. -/
theorem C5_rank_characterization_witness :
    (∀ e ∈ [mkEp (str "T") (str "a") (some 8), mkEp (str "U") (str "b") (some 9)],
      (e.imdb_rating).isSome = true) ∧
    rank_and_select [mkEp (str "T") (str "a") (some 8),
        mkEp (str "U") (str "b") (some 9)] 1 =
      (rank_and_select [mkEp (str "T") (str "a") (some 8),
        mkEp (str "U") (str "b") (some 9)]
        ([mkEp (str "T") (str "a") (some 8),
          mkEp (str "U") (str "b") (some 9)].length)).take 1 :=
  ⟨by decide,
    (C5_rank_characterization
      [mkEp (str "T") (str "a") (some 8), mkEp (str "U") (str "b") (some 9)] 1
      (by decide) (by decide)).1⟩

/-- C5 counterexample: two candidates with equal rating and equal title
(differing elsewhere) keep their input order, so permuting the input
changes the output — the claimed input-order independence fails on
full-key ties. -/
theorem C5_counterexample :
    (∀ e ∈ [mkEp (str "T") (str "a") (some 8), mkEp (str "T") (str "b") (some 8)],
      (e.imdb_rating).isSome = true) ∧
    List.Perm [mkEp (str "T") (str "b") (some 8), mkEp (str "T") (str "a") (some 8)]
      [mkEp (str "T") (str "a") (some 8), mkEp (str "T") (str "b") (some 8)] ∧
    rank_and_select [mkEp (str "T") (str "a") (some 8),
        mkEp (str "T") (str "b") (some 8)] 2 ≠
      rank_and_select [mkEp (str "T") (str "b") (some 8),
        mkEp (str "T") (str "a") (some 8)] 2 := by
  refine ⟨by decide, ?_, by decide⟩
  decide

/-- C7: whenever the split does not give exactly two sides, or a side
violates the marker structure or has an unparseable integer component,
`parse_range` fails with the format error, whose message embeds the
offending literal text; in particular `S2-E1>S3E1` is rejected. -/
theorem C7_format_errors (s : Str)
    (hviol : (∀ l r, splitGt s ≠ [l, r]) ∨
      ∃ l r, splitGt s = [l, r] ∧ (¬ sideWellFormed l ∨ ¬ sideWellFormed r)) :
    (∃ m, parse_range s = .error (.invalidFormat m) ∧ ∃ pre post, m = pre ++ s ++ post)
    ∧ parse_range (str "S2-E1>S3E1") =
        .error (.invalidFormat (argErrMsg (str "S2-E1>S3E1"))) := by
  constructor
  · have hfmt : parse_range s = .error (.invalidFormat (argErrMsg s)) := by
      rcases hviol with hall | ⟨l, r, hsg, hside⟩
      · unfold parse_range
        rcases hsg : splitGt s with _ | ⟨a, _ | ⟨b, _ | ⟨d, tl⟩⟩⟩
        · rfl
        · rfl
        · exact absurd hsg (hall a b)
        · rfl
      · rw [parse_range_of_splitGt hsg]
        rcases hside with hl | hr
        · refine parseSides_none_left s r ?_
          rcases hse : se_to_tuple l with _ | p
          · rfl
          · exact absurd ((sideWellFormed_iff l).mpr (by rw [hse]; rfl)) hl
        · refine parseSides_none_right s l ?_
          rcases hse : se_to_tuple r with _ | p
          · rfl
          · exact absurd ((sideWellFormed_iff r).mpr (by rw [hse]; rfl)) hr
    exact ⟨argErrMsg s, hfmt,
      str "Invalid range format: '", str "'. Expected 'SxEy>SxEy'", rfl⟩
  · rfl

/-- C7 witness: `S2-E1>S3E1` splits into two sides whose left side is
not well-formed (`2-` does not parse), and the format error quotes the
input. -/
theorem C7_format_errors_witness :
    splitGt (str "S2-E1>S3E1") = [str "S2-E1", str "S3E1"] ∧
    ¬ sideWellFormed (str "S2-E1") ∧
    (∃ m, parse_range (str "S2-E1>S3E1") = .error (.invalidFormat m) ∧
      ∃ pre post, m = pre ++ str "S2-E1>S3E1" ++ post) := by
  refine ⟨by decide, by decide, ?_⟩
  exact (C7_format_errors (str "S2-E1>S3E1")
    (Or.inr ⟨str "S2-E1", str "S3E1", by decide, Or.inl (by decide)⟩)).1

/-- C8: the `--details` lookup strips the query, lowercases both the
stored title and the query, returns the first match (`find?`), is
invariant under changing the letter case of the query, and cannot report
not-found when some record's title matches up to case. -/
theorem C8_details_case_insensitive (eps : List Episode) (q q2 : Str) (e : Episode)
    (hq : lowerStr q2 = lowerStr q) (he : e ∈ eps)
    (ht : lowerStr e.title = lowerStr (pyStrip q)) :
    details_lookup eps q =
      eps.find? (fun e2 => lowerStr e2.title = lowerStr (pyStrip q))
    ∧ details_lookup eps q2 = details_lookup eps q
    ∧ (details_lookup eps q).isSome = true := by
  have hkey : lowerStr (pyStrip q2) = lowerStr (pyStrip q) := by
    rw [← pyStrip_lowerStr, hq, pyStrip_lowerStr]
  refine ⟨?_, ?_, ?_⟩
  · rw [details_lookup_eq_head, head_filter_eq_find]
  · rw [details_lookup_eq_head, details_lookup_eq_head, hkey]
  · rw [details_lookup_eq_head]
    have hmem : e ∈ eps.filter (fun e2 => lowerStr e2.title = lowerStr (pyStrip q)) :=
      List.mem_filter.mpr ⟨he, by simp [ht]⟩
    rcases hft : eps.filter (fun e2 => lowerStr e2.title = lowerStr (pyStrip q)) with
      _ | ⟨x, t⟩
    · rw [hft] at hmem
      cases hmem
    · rw [hft]
      rfl

/-- C8 witness: a query differing from the stored title only in case
and surrounding whitespace still finds the record. -/
theorem C8_details_case_insensitive_witness :
    lowerStr (str " rEPRESSION") = lowerStr (str " Repression") ∧
    mkEp (str "Repression") (str "a") (some 8) ∈
      [mkEp (str "Repression") (str "a") (some 8)] ∧
    lowerStr (mkEp (str "Repression") (str "a") (some 8)).title =
      lowerStr (pyStrip (str " Repression")) ∧
    details_lookup [mkEp (str "Repression") (str "a") (some 8)]
        (str " rEPRESSION") =
      details_lookup [mkEp (str "Repression") (str "a") (some 8)]
        (str " Repression") ∧
    (details_lookup [mkEp (str "Repression") (str "a") (some 8)]
        (str " Repression")).isSome = true := by
  refine ⟨by decide, by decide, by decide, ?_, ?_⟩
  · exact (C8_details_case_insensitive
      [mkEp (str "Repression") (str "a") (some 8)] (str " Repression")
      (str " rEPRESSION") (mkEp (str "Repression") (str "a") (some 8))
      (by decide) (by decide) (by decide)).2.1
  · exact (C8_details_case_insensitive
      [mkEp (str "Repression") (str "a") (some 8)] (str " Repression")
      (str " rEPRESSION") (mkEp (str "Repression") (str "a") (some 8))
      (by decide) (by decide) (by decide)).2.2

/-- C9 (amended): the Ranker is total on unknown ratings — replacing
every absent rating by `0.0` leaves the ranked output unchanged
record-for-record, and no unknown-rating record ever precedes a record
with a known strictly positive rating.  (A known rating of exactly `0.0`
ties with the unknowns and the tie is broken by title, so unknowns do
not sort after all known ratings in `[0,10]` — see the counterexample.) -/
theorem C9_rank_unknown_as_zero (c : List Episode) (n : Nat) :
    rank_and_select (c.map fixRating) n = (rank_and_select c n).map fixRating
    ∧ List.Pairwise (fun a b => ¬(a.imdb_rating = none ∧
        ∃ q, b.imdb_rating = some q ∧ 0 < q)) (rank_and_select c n) := by
  constructor
  · unfold rank_and_select
    rw [← pySorted_map keyOf_fixRating c, List.map_take]
  · have hs : List.Pairwise keyLE (pySorted c) := pySorted_sorted c
    have ht : List.Pairwise keyLE (rank_and_select c n) :=
      hs.sublist (List.take_sublist n (pySorted c))
    refine ht.imp ?_
    intro a b hle
    rintro ⟨ha, qv, hb, hq⟩
    unfold keyLE at hle
    have hlt : keyLt b a = true := by
      refine keyLt_eq_true_iff.mpr (Or.inl ?_)
      unfold ratingKey
      rw [ha, hb]
      simp only [Option.getD_some, Option.getD_none, neg_zero]
      exact neg_lt_zero.mpr hq
    rw [hlt] at hle
    cases hle

/-- C9 counterexample: an unknown-rating record with an early title
sorts before a record with the known rating `0.0` — contradicting the
claim that unknowns sort after all candidates with known ratings in
`[0,10]`. -/
theorem C9_counterexample :
    (mkEp (str "Z") (str "a") (some 0)).imdb_rating = some 0 ∧
    (0 : ℚ) ≤ 0 ∧ (0 : ℚ) ≤ 10 ∧
    rank_and_select
        [mkEp (str "Z") (str "a") (some 0), mkEp (str "A") (str "a") none] 2 =
      [mkEp (str "A") (str "a") none, mkEp (str "Z") (str "a") (some 0)] := by
  refine ⟨rfl, by decide, by decide, ?_⟩
  rfl

/-- C10: the range parser is insensitive to the letter case of the
`S`/`E` markers and to whitespace around either side: any variant of a
successfully parsed expression obtained by lowercasing a side and/or
surrounding the sides with whitespace parses to the same quadruple. -/
theorem C10_parse_insensitive (l r wsa wsb wsc wsd : Str) (lowL lowR : Bool)
    (q : Int × Int × Int × Int)
    (ha : ∀ c ∈ wsa, isWs c = true) (hb : ∀ c ∈ wsb, isWs c = true)
    (hc : ∀ c ∈ wsc, isWs c = true) (hd : ∀ c ∈ wsd, isWs c = true)
    (hgl : 62 ∉ l) (hgr : 62 ∉ r)
    (hok : parse_range (l ++ 62 :: r) = .ok q) :
    parse_range ((wsa ++ (if lowL then lowerStr l else l) ++ wsb) ++ 62 ::
      (wsc ++ (if lowR then lowerStr r else r) ++ wsd)) = .ok q := by
  have hl2 : 62 ∉ (if lowL then lowerStr l else l) ∧
      se_to_tuple (if lowL then lowerStr l else l) = se_to_tuple l := by
    cases lowL
    · exact ⟨hgl, rfl⟩
    · exact ⟨not_mem_gt_lowerStr hgl, se_to_tuple_lower l⟩
  have hr2 : 62 ∉ (if lowR then lowerStr r else r) ∧
      se_to_tuple (if lowR then lowerStr r else r) = se_to_tuple r := by
    cases lowR
    · exact ⟨hgr, rfl⟩
    · exact ⟨not_mem_gt_lowerStr hgr, se_to_tuple_lower r⟩
  have hgL : 62 ∉ wsa ++ (if lowL then lowerStr l else l) ++ wsb := by
    intro hm
    rcases List.mem_append.mp hm with hm1 | hm2
    · rcases List.mem_append.mp hm1 with hma | hml
      · exact isWs_ne_gt (ha 62 hma) rfl
      · exact hl2.1 hml
    · exact isWs_ne_gt (hb 62 hm2) rfl
  have hgR : 62 ∉ wsc ++ (if lowR then lowerStr r else r) ++ wsd := by
    intro hm
    rcases List.mem_append.mp hm with hm1 | hm2
    · rcases List.mem_append.mp hm1 with hma | hml
      · exact isWs_ne_gt (hc 62 hma) rfl
      · exact hr2.1 hml
    · exact isWs_ne_gt (hd 62 hm2) rfl
  have hseL : se_to_tuple (wsa ++ (if lowL then lowerStr l else l) ++ wsb) =
      se_to_tuple l :=
    (se_to_tuple_ws wsa wsb _ ha hb).trans hl2.2
  have hseR : se_to_tuple (wsc ++ (if lowR then lowerStr r else r) ++ wsd) =
      se_to_tuple r :=
    (se_to_tuple_ws wsc wsd _ hc hd).trans hr2.2
  rw [parse_range_of_splitGt (splitGt_pair hgl hgr)] at hok
  rw [parse_range_of_splitGt (splitGt_pair hgL hgR)]
  rcases hv1 : se_to_tuple l with _ | ⟨s1, e1⟩
  · rw [parseSides_none_left _ _ hv1] at hok
    cases hok
  · rcases hv2 : se_to_tuple r with _ | ⟨s2, e2⟩
    · rw [parseSides_none_right _ _ hv2] at hok
      cases hok
    · rw [parseSides_some_some _ hv1 hv2] at hok
      rw [parseSides_some_some _ (hseL.trans hv1) (hseR.trans hv2)]
      by_cases hord : s2 < s1 ∨ (s2 = s1 ∧ e2 < e1)
      · rw [if_pos hord] at hok
        cases hok
      · rw [if_neg hord] at hok
        rw [if_neg hord]
        exact hok

/-- C10 witness: `" s2e1 >S6E20 "`-style variant of `S2E1>S6E20` parses
to the same quadruple. -/
theorem C10_parse_insensitive_witness :
    parse_range (str "S2E1" ++ 62 :: str "S6E20") = .ok (2, 1, 6, 20) ∧
    parse_range (([32] ++ (if true then lowerStr (str "S2E1") else str "S2E1") ++ [32]) ++
      62 :: ([] ++ (if false then lowerStr (str "S6E20") else str "S6E20") ++ [32])) =
      .ok (2, 1, 6, 20) := by
  refine ⟨rfl, ?_⟩
  exact C10_parse_insensitive (str "S2E1") (str "S6E20") [32] [32] [] [32] true false
    (2, 1, 6, 20) (by decide) (by decide) (by decide) (by decide) (by decide) (by decide)
    rfl
